import Mathlib

/-
  Verification of the email validation / comparison pipeline of
  ness-to-odoo-golang-validation-api-tool.

  Go strings are modelled as lists of characters; the Go standard library
  functions used by the source (strings.TrimSpace, strings.ToLower,
  strings.Split, strings.Replace, strings.Index, strings.Contains) are
  embedded as computable functions on these lists.  Go maps are modelled as
  association lists with update-in-place insertion; since Go leaves map
  iteration order unspecified, any code that ranges over a map is
  parameterised by the iteration order, constrained to be a permutation of
  the map entries.  File input and output is modelled over explicit row
  lists; time is modelled as natural-number timestamps.
-/

namespace EmailTool

/-- A Go string, modelled as its list of characters. -/
abbrev GoStr := List Char

/-- The ASCII whitespace characters removed by strings.TrimSpace
(the source only ever feeds it ASCII text, so the extra Unicode space
classes of the Go version are irrelevant here). -/
def isSpaceChar (c : Char) : Bool :=
  c == ' ' || c == '\t' || c == '\n' || c == '\r'

/-- Drop leading whitespace. -/
def trimLeft : GoStr → GoStr
  | [] => []
  | c :: cs => if isSpaceChar c then trimLeft cs else c :: cs

/-- Model of strings.TrimSpace: drop leading and trailing whitespace. -/
def trimSpace (s : GoStr) : GoStr :=
  (trimLeft (trimLeft s).reverse).reverse

/-- Lower-case one character (model of the per-rune action of strings.ToLower
on the ASCII range used by the repository). -/
def lowerChar (c : Char) : Char :=
  if 65 ≤ c.toNat ∧ c.toNat ≤ 90 then Char.ofNat (c.toNat + 32) else c

/-- Model of strings.ToLower. -/
def toLowerStr (s : GoStr) : GoStr := s.map lowerChar

/-- Model of strings.Split with a one-character separator: Go semantics,
so the empty string yields one empty part and n separators yield n+1 parts. -/
def splitOnChar (sep : Char) : GoStr → List GoStr
  | [] => [[]]
  | c :: cs =>
    if c = sep then [] :: splitOnChar sep cs
    else
      match splitOnChar sep cs with
      | [] => [[c]]
      | t :: ts => (c :: t) :: ts

/-- Model of strings.Index for a one-character pattern, as the optional
index of the first character satisfying p (Go returns -1 for none). -/
def firstIdxOf (p : Char → Bool) : GoStr → Option Nat
  | [] => none
  | c :: cs => if p c then some 0 else (firstIdxOf p cs).map (· + 1)

/-- The gmail branch of NormalizeEmail (email_validation.go lines 944-953):
strings.Replace(username, ".", "", -1), then truncation at the first plus
sign when its index is positive. -/
def gmailUsername (u : GoStr) : GoStr :=
  let u2 := u.filter (fun c => !(c == '.'))
  match firstIdxOf (fun c => c == '+') u2 with
  | some i => if 0 < i then u2.take i else u2
  | none => u2

/-- NormalizeEmail (email_validation.go lines 939-957): trim, lowercase,
and on the single gmail.com domain additionally rewrite the local part. -/
def NormalizeEmail (email : GoStr) : GoStr :=
  let e := toLowerStr (trimSpace email)
  match splitOnChar '@' e with
  | [u, d] =>
    if d = "gmail.com".data then gmailUsername u ++ '@' :: "gmail.com".data
    else e
  | _ => e

/-- EmailValidationResult (email_validation.go lines 807-814). -/
structure EmailValidationResult where
  email : GoStr
  isValid : Bool
  isDisposable : Bool
  normalizedEmail : GoStr
  reason : GoStr
deriving DecidableEq, Repr

/-- The Go zero value of EmailValidationResult, used to pre-size the batch
result slice. -/
def zeroResult : EmailValidationResult :=
  { email := [], isValid := false, isDisposable := false
    normalizedEmail := [], reason := [] }

/-- ValidateEmailDetailed (email_validation.go lines 833-877): trim, fill in
the normalized form, then accept exactly the trimmed non-empty strings that
split into two parts on the at-sign.  The disposable-domain and MX branches
of the source are commented out and therefore absent. -/
def ValidateEmailDetailed (email0 : GoStr) : EmailValidationResult :=
  let email := trimSpace email0
  let base : EmailValidationResult :=
    { email := email
      isValid := false
      isDisposable := false
      normalizedEmail := NormalizeEmail email
      reason := [] }
  if email = [] then { base with reason := "Email cannot be empty".data }
  else if (splitOnChar '@' email).length ≠ 2 then
    { base with reason := "Email must contain exactly one @ symbol".data }
  else
    { base with isValid := true }

/-- C4 The validity verdict is exactly: trimmed input non-empty and splitting
on the at-sign yields exactly two parts; nothing else (regex, domain,
disposable or MX data) enters the verdict. -/
theorem validate_isValid_iff (x : GoStr) :
    (ValidateEmailDetailed x).isValid = true ↔
      (trimSpace x ≠ [] ∧ (splitOnChar '@' (trimSpace x)).length = 2) := by
  unfold ValidateEmailDetailed
  dsimp only
  split_ifs with h1 h2 <;> simp_all

/-! Structural facts about the string primitives. -/

theorem splitOnChar_ne_nil (sep : Char) (s : GoStr) : splitOnChar sep s ≠ [] := by
  induction s with
  | nil => simp [splitOnChar]
  | cons c cs ih =>
    unfold splitOnChar
    split_ifs
    · simp
    · rcases h : splitOnChar sep cs with _ | ⟨t, ts⟩
      · simp
      · simp [h]

theorem splitOnChar_cons_sep (sep : Char) (cs : GoStr) :
    splitOnChar sep (sep :: cs) = [] :: splitOnChar sep cs := by
  have heq : splitOnChar sep (sep :: cs) =
      if sep = sep then [] :: splitOnChar sep cs
      else
        match splitOnChar sep cs with
        | [] => [[sep]]
        | t :: ts => (sep :: t) :: ts := rfl
  rw [heq, if_pos rfl]

theorem splitOnChar_cons_ne (sep c : Char) (cs t : GoStr) (ts : List GoStr)
    (hc : ¬c = sep) (h : splitOnChar sep cs = t :: ts) :
    splitOnChar sep (c :: cs) = (c :: t) :: ts := by
  have heq : splitOnChar sep (c :: cs) =
      if c = sep then [] :: splitOnChar sep cs
      else
        match splitOnChar sep cs with
        | [] => [[c]]
        | t :: ts => (c :: t) :: ts := rfl
  rw [heq, if_neg hc, h]

theorem splitOnChar_length (sep : Char) (s : GoStr) :
    (splitOnChar sep s).length = s.count sep + 1 := by
  induction s with
  | nil => simp [splitOnChar]
  | cons c cs ih =>
    rcases h : splitOnChar sep cs with _ | ⟨t, ts⟩
    · exact absurd h (splitOnChar_ne_nil sep cs)
    · rw [h] at ih
      by_cases hc : c = sep
      · subst hc
        rw [splitOnChar_cons_sep, h]
        simp only [List.length_cons, List.count_cons, beq_self_eq_true, if_true] at ih ⊢
        omega
      · rw [splitOnChar_cons_ne sep c cs t ts hc h]
        have hb : (c == sep) = false := by simpa using hc
        simp [List.count_cons, hb] at ih ⊢
        omega

theorem splitOnChar_single (sep : Char) (s x : GoStr)
    (h : splitOnChar sep s = [x]) : s = x ∧ sep ∉ x := by
  induction s generalizing x with
  | nil =>
    simp [splitOnChar] at h
    subst h
    simp
  | cons c cs ih =>
    by_cases hc : c = sep
    · subst hc
      rw [splitOnChar_cons_sep] at h
      have : splitOnChar c cs = [] := by injection h
      exact absurd this (splitOnChar_ne_nil c cs)
    · rcases hrec : splitOnChar sep cs with _ | ⟨t, ts⟩
      · exact absurd hrec (splitOnChar_ne_nil sep cs)
      · rw [splitOnChar_cons_ne sep c cs t ts hc hrec] at h
        have hx : c :: t = x := by injection h
        have hts : ts = [] := by injection h
        subst hts
        obtain ⟨hcs, hmem⟩ := ih t hrec
        subst hcs
        refine ⟨hx, ?_⟩
        rw [← hx]
        intro hm
        rcases List.mem_cons.mp hm with h1 | h1
        · exact hc h1.symm
        · exact hmem h1

theorem splitOnChar_pair (sep : Char) (s u d : GoStr)
    (h : splitOnChar sep s = [u, d]) : s = u ++ sep :: d ∧ sep ∉ u ∧ sep ∉ d := by
  induction s generalizing u with
  | nil => simp [splitOnChar] at h
  | cons c cs ih =>
    by_cases hc : c = sep
    · subst hc
      rw [splitOnChar_cons_sep] at h
      have hu : ([] : GoStr) = u := by injection h
      have hd : splitOnChar c cs = [d] := by
        have h2 : splitOnChar c cs = [d] := by injection h
        exact h2
      obtain ⟨hcs, hmem⟩ := splitOnChar_single c cs d hd
      subst hcs
      rw [← hu]
      exact ⟨rfl, by simp, hmem⟩
    · rcases hrec : splitOnChar sep cs with _ | ⟨t, ts⟩
      · exact absurd hrec (splitOnChar_ne_nil sep cs)
      · rw [splitOnChar_cons_ne sep c cs t ts hc hrec] at h
        have hu : c :: t = u := by injection h
        have hts : ts = [d] := by injection h
        have hpair : splitOnChar sep cs = [t, d] := by rw [hrec, hts]
        obtain ⟨hcs, hmt, hmd⟩ := ih t hpair
        subst hcs
        rw [← hu]
        refine ⟨by simp, ?_, hmd⟩
        intro hm
        rcases List.mem_cons.mp hm with h1 | h1
        · exact hc h1.symm
        · exact hmt h1

theorem takeWhile_append_sep (sep : Char) (u d : GoStr) (hu : sep ∉ u) :
    (u ++ sep :: d).takeWhile (fun c => !(c == sep)) = u := by
  induction u with
  | nil => simp [List.takeWhile_cons]
  | cons c cs ih =>
    have hcx : ¬c = sep := fun h => hu (h ▸ List.mem_cons_self c cs)
    have hcf : (c == sep) = false := by simpa using hcx
    simp only [List.cons_append, List.takeWhile_cons, hcf, Bool.not_false, if_true]
    rw [ih (fun h => hu (List.mem_cons_of_mem c h))]

theorem dropWhile_append_sep (sep : Char) (u d : GoStr) (hu : sep ∉ u) :
    (u ++ sep :: d).dropWhile (fun c => !(c == sep)) = sep :: d := by
  induction u with
  | nil => simp [List.dropWhile_cons]
  | cons c cs ih =>
    have hc : ¬c = sep := fun h => hu (h ▸ List.mem_cons_self c cs)
    have hcf : (c == sep) = false := by simpa using hc
    simp only [List.cons_append, List.dropWhile_cons, hcf, Bool.not_false, if_true]
    exact ih (fun h => hu (List.mem_cons_of_mem c h))

theorem firstIdxOf_none (p : Char → Bool) (l : GoStr)
    (h : firstIdxOf p l = none) : ∀ c ∈ l, p c = false := by
  induction l with
  | nil => simp
  | cons c cs ih =>
    unfold firstIdxOf at h
    by_cases hc : p c
    · rw [if_pos hc] at h
      simp at h
    · rw [if_neg hc] at h
      intro x hx
      rcases List.mem_cons.mp hx with h1 | h1
      · subst h1
        simpa using hc
      · rcases hrec : firstIdxOf p cs with _ | i
        · exact ih hrec x h1
        · rw [hrec] at h
          simp at h

theorem firstIdxOf_mem (p : Char → Bool) (l : GoStr) (i : Nat)
    (h : firstIdxOf p l = some i) : ∃ c ∈ l, p c = true := by
  induction l generalizing i with
  | nil => simp [firstIdxOf] at h
  | cons c cs ih =>
    unfold firstIdxOf at h
    by_cases hc : p c
    · exact ⟨c, List.mem_cons_self c cs, hc⟩
    · rw [if_neg hc] at h
      rcases hrec : firstIdxOf p cs with _ | j
      · rw [hrec] at h
        simp at h
      · obtain ⟨x, hx, hpx⟩ := ih j hrec
        exact ⟨x, List.mem_cons_of_mem c hx, hpx⟩

theorem firstIdxOf_succ (p : Char → Bool) (l : GoStr) (j : Nat)
    (h : firstIdxOf p l = some (j + 1)) :
    ∃ c cs, l = c :: cs ∧ p c = false ∧ firstIdxOf p cs = some j := by
  cases l with
  | nil => simp [firstIdxOf] at h
  | cons c cs =>
    unfold firstIdxOf at h
    by_cases hc : p c
    · rw [if_pos hc] at h
      simp at h
    · rw [if_neg hc] at h
      rcases hrec : firstIdxOf p cs with _ | k
      · rw [hrec] at h
        simp at h
      · rw [hrec] at h
        simp at h
        subst h
        exact ⟨c, cs, rfl, by simpa using hc, hrec⟩

theorem firstIdxOf_zero (p : Char → Bool) (l : GoStr)
    (h : firstIdxOf p l = some 0) : ∃ c cs, l = c :: cs ∧ p c = true := by
  cases l with
  | nil => simp [firstIdxOf] at h
  | cons c cs =>
    unfold firstIdxOf at h
    by_cases hc : p c
    · exact ⟨c, cs, rfl, hc⟩
    · rw [if_neg hc] at h
      rcases hrec : firstIdxOf p cs with _ | k
      · rw [hrec] at h
        simp at h
      · rw [hrec] at h
        simp at h

theorem firstIdxOf_take_eq_takeWhile (p : Char → Bool) (l : GoStr) (i : Nat)
    (h : firstIdxOf p l = some i) :
    l.take i = l.takeWhile (fun c => !(p c)) := by
  induction l generalizing i with
  | nil => simp
  | cons c cs ih =>
    unfold firstIdxOf at h
    by_cases hc : p c
    · rw [if_pos hc] at h
      have hi : i = 0 := by
        have := h.symm
        simpa using this
      subst hi
      simp [List.takeWhile_cons, hc]
    · rw [if_neg hc] at h
      rcases hrec : firstIdxOf p cs with _ | j
      · rw [hrec] at h
        simp at h
      · rw [hrec] at h
        simp at h
        subst h
        have hcf : p c = false := by simpa using hc
        simp [List.take_succ_cons, List.takeWhile_cons, hcf, ih j hrec]

/-- Spec-side restatement of the normalization contract (spec sections 4.2
and 8): trim and lowercase; when exactly one at-sign is present and the text
after it equals gmail.com, strip every dot from the local part, then truncate
the local part at the first plus sign when that plus sign is not its first
character; every other string gets trim and lowercase only. -/
def normalizeSpec (x : GoStr) : GoStr :=
  let t := toLowerStr (trimSpace x)
  let domainPart := (t.dropWhile (fun c => !(c == '@'))).tail
  if t.count '@' = 1 ∧ domainPart = "gmail.com".data then
    let localPart := t.takeWhile (fun c => !(c == '@'))
    let l1 := localPart.filter (fun c => !(c == '.'))
    let l2 :=
      if '+' ∈ l1 ∧ l1.head? ≠ some '+' then l1.takeWhile (fun c => !(c == '+'))
      else l1
    l2 ++ '@' :: domainPart
  else t

theorem gmailUsername_eq_spec (u : GoStr) :
    gmailUsername u =
      if '+' ∈ u.filter (fun c => !(c == '.')) ∧
          (u.filter (fun c => !(c == '.'))).head? ≠ some '+' then
        (u.filter (fun c => !(c == '.'))).takeWhile (fun c => !(c == '+'))
      else u.filter (fun c => !(c == '.')) := by
  unfold gmailUsername
  dsimp only
  rcases hfi : firstIdxOf (fun c => c == '+') (u.filter (fun c => !(c == '.'))) with _ | i
  · simp only [hfi]
    rw [if_neg]
    intro hcond
    have := firstIdxOf_none _ _ hfi '+' hcond.1
    simp at this
  · simp only [hfi]
    rcases i with _ | j
    · rw [if_neg (by simp), if_neg]
      intro hcond
      obtain ⟨c, cs, hl, hpc⟩ := firstIdxOf_zero _ _ hfi
      simp only [beq_iff_eq] at hpc
      subst hpc
      rw [hl] at hcond
      simp at hcond
    · rw [if_pos (Nat.zero_lt_succ j), if_pos]
      · exact firstIdxOf_take_eq_takeWhile _ _ _ hfi
      · obtain ⟨c, cs, hl, hpc, _⟩ := firstIdxOf_succ _ _ _ hfi
        constructor
        · obtain ⟨x, hx, hpx⟩ := firstIdxOf_mem _ _ _ hfi
          simp only [beq_iff_eq] at hpx
          exact hpx ▸ hx
        · rw [hl]
          simp only [List.head?_cons, ne_eq, Option.some.injEq]
          intro he
          rw [he] at hpc
          simp at hpc

/-- C5 NormalizeEmail agrees with the spec description of the normalizer on
every input, and sends the documented gmail example to firstlast@gmail.com. -/
theorem normalize_matches_spec :
    (∀ x : GoStr, NormalizeEmail x = normalizeSpec x) ∧
      NormalizeEmail " First.Last+promo@gmail.com ".data = "firstlast@gmail.com".data := by
  constructor
  · intro x
    unfold NormalizeEmail normalizeSpec
    dsimp only
    have hlen := splitOnChar_length '@' (toLowerStr (trimSpace x))
    rcases h : splitOnChar '@' (toLowerStr (trimSpace x)) with _ | ⟨u, _ | ⟨d, _ | ⟨e3, rest⟩⟩⟩
    · exact absurd h (splitOnChar_ne_nil _ _)
    · rw [h] at hlen
      simp only [List.length_cons, List.length_nil] at hlen
      simp only [h]
      rw [if_neg]
      intro hcond
      obtain ⟨h1, _⟩ := hcond
      omega
    · rw [h] at hlen
      simp only [List.length_cons, List.length_nil] at hlen
      obtain ⟨hs, hu, hd⟩ := splitOnChar_pair '@' _ u d h
      have hcnt : (toLowerStr (trimSpace x)).count '@' = 1 := by omega
      simp only [h]
      rw [hs] at hcnt
      rw [hs, dropWhile_append_sep '@' u d hu, takeWhile_append_sep '@' u d hu]
      simp only [List.tail_cons]
      by_cases hgm : d = "gmail.com".data
      · rw [if_pos hgm, if_pos ⟨hcnt, hgm⟩, hgm, gmailUsername_eq_spec]
      · rw [if_neg hgm, if_neg (fun hcond => hgm hcond.2)]
    · rw [h] at hlen
      simp only [List.length_cons] at hlen
      simp only [h]
      rw [if_neg]
      intro hcond
      obtain ⟨h1, _⟩ := hcond
      omega
  · decide

/-! Lower-casing facts and further split facts, used for the idempotence
analysis of NormalizeEmail. -/

theorem toNat_ofNat_valid (n : Nat) (h : n.isValidChar) : (Char.ofNat n).toNat = n := by
  rw [Char.ofNat, dif_pos h]
  rfl

theorem lowerChar_lowerChar (c : Char) : lowerChar (lowerChar c) = lowerChar c := by
  unfold lowerChar
  split_ifs with h1 h2
  · exfalso
    have hv : (c.toNat + 32).isValidChar := by
      unfold Nat.isValidChar
      omega
    rw [toNat_ofNat_valid _ hv] at h2
    omega
  · rfl
  · rfl

theorem toLowerStr_idem (s : GoStr) : toLowerStr (toLowerStr s) = toLowerStr s := by
  unfold toLowerStr
  rw [List.map_map]
  exact List.map_congr_left (fun a _ => lowerChar_lowerChar a)

theorem lowerChar_fixed_of_mem_toLower (s : GoStr) (c : Char)
    (h : c ∈ toLowerStr s) : lowerChar c = c := by
  unfold toLowerStr at h
  obtain ⟨a, _, rfl⟩ := List.mem_map.mp h
  exact lowerChar_lowerChar a

theorem toLowerStr_eq_self (l : GoStr) (h : ∀ c ∈ l, lowerChar c = c) :
    toLowerStr l = l := by
  unfold toLowerStr
  exact (List.map_congr_left h).trans (List.map_id l)

theorem splitOnChar_not_mem (sep : Char) (s : GoStr) (h : sep ∉ s) :
    splitOnChar sep s = [s] := by
  induction s with
  | nil => rfl
  | cons c cs ih =>
    have hc : ¬c = sep := fun he => h (he ▸ List.mem_cons_self c cs)
    have hrec := ih (fun hm => h (List.mem_cons_of_mem c hm))
    rw [splitOnChar_cons_ne sep c cs cs [] hc hrec]

theorem splitOnChar_pair_of (sep : Char) (u d : GoStr) (hu : sep ∉ u) (hd : sep ∉ d) :
    splitOnChar sep (u ++ sep :: d) = [u, d] := by
  induction u with
  | nil =>
    simp only [List.nil_append]
    rw [splitOnChar_cons_sep, splitOnChar_not_mem sep d hd]
  | cons c cs ih =>
    have hc : ¬c = sep := fun he => hu (he ▸ List.mem_cons_self c cs)
    have hrec := ih (fun hm => hu (List.mem_cons_of_mem c hm))
    simp only [List.cons_append]
    rw [splitOnChar_cons_ne sep c (cs ++ sep :: d) cs [d] hc hrec]

theorem firstIdxOf_none_of (p : Char → Bool) (l : GoStr)
    (h : ∀ c ∈ l, p c = false) : firstIdxOf p l = none := by
  induction l with
  | nil => rfl
  | cons c cs ih =>
    unfold firstIdxOf
    have hc : ¬p c = true := by simp [h c (List.mem_cons_self c cs)]
    rw [if_neg hc, ih (fun x hx => h x (List.mem_cons_of_mem c hx))]
    rfl

/-- Definitional equation of gmailUsername, convenient for rewriting. -/
theorem gmailUsername_eq (u : GoStr) :
    gmailUsername u =
      match firstIdxOf (fun c => c == '+') (u.filter (fun c => !(c == '.'))) with
      | some i =>
        if 0 < i then (u.filter (fun c => !(c == '.'))).take i
        else u.filter (fun c => !(c == '.'))
      | none => u.filter (fun c => !(c == '.')) := rfl

theorem gmailUsername_mem_filter (u : GoStr) (c : Char) (hc : c ∈ gmailUsername u) :
    c ∈ u.filter (fun c => !(c == '.')) := by
  rw [gmailUsername_eq u] at hc
  rcases hfi : firstIdxOf (fun c => c == '+') (u.filter (fun c => !(c == '.'))) with _ | i
  · rw [hfi] at hc
    exact hc
  · rw [hfi] at hc
    simp only at hc
    split_ifs at hc with h
    · exact List.take_subset i _ hc
    · exact hc

theorem gmailUsername_subset (u : GoStr) (c : Char) (hc : c ∈ gmailUsername u) :
    c ∈ u :=
  (List.mem_filter.mp (gmailUsername_mem_filter u c hc)).1

theorem gmailUsername_no_dot (u : GoStr) (c : Char) (hc : c ∈ gmailUsername u) :
    (c == '.') = false := by
  have := (List.mem_filter.mp (gmailUsername_mem_filter u c hc)).2
  simpa using this

theorem gmailUsername_idem (u : GoStr) :
    gmailUsername (gmailUsername u) = gmailUsername u := by
  have hfilter : (gmailUsername u).filter (fun c => !(c == '.')) = gmailUsername u :=
    List.filter_eq_self.mpr (fun c hc => by
      simp [gmailUsername_no_dot u c hc])
  rw [gmailUsername_eq (gmailUsername u), hfilter]
  rcases hfi : firstIdxOf (fun c => c == '+') (u.filter (fun c => !(c == '.'))) with _ | i
  · have hval : gmailUsername u = u.filter (fun c => !(c == '.')) := by
      rw [gmailUsername_eq u, hfi]
    rw [hval, hfi]
  · rcases i with _ | j
    · have hval : gmailUsername u = u.filter (fun c => !(c == '.')) := by
        rw [gmailUsername_eq u, hfi]
        simp
      rw [hval, hfi]
      simp
    · have hval : gmailUsername u = (u.filter (fun c => !(c == '.'))).take (j + 1) := by
        rw [gmailUsername_eq u, hfi]
        simp
      have hnone : firstIdxOf (fun c => c == '+') (gmailUsername u) = none := by
        apply firstIdxOf_none_of
        intro c hc
        rw [hval, firstIdxOf_take_eq_takeWhile _ _ _ hfi] at hc
        have := List.mem_takeWhile_imp hc
        simpa using this
      rw [hnone]

/-- Definitional equation of NormalizeEmail, convenient for rewriting. -/
theorem NormalizeEmail_eq (z : GoStr) :
    NormalizeEmail z =
      match splitOnChar '@' (toLowerStr (trimSpace z)) with
      | [u, d] =>
        if d = "gmail.com".data then gmailUsername u ++ '@' :: "gmail.com".data
        else toLowerStr (trimSpace z)
      | _ => toLowerStr (trimSpace z) := rfl

/-- NormalizeEmail either only trims and lowercases, or rewrites through the
gmail branch. -/
theorem NormalizeEmail_cases (x : GoStr) :
    NormalizeEmail x = toLowerStr (trimSpace x) ∨
      ∃ u d, splitOnChar '@' (toLowerStr (trimSpace x)) = [u, d] ∧
        d = "gmail.com".data ∧
        NormalizeEmail x = gmailUsername u ++ '@' :: "gmail.com".data := by
  rw [NormalizeEmail_eq x]
  rcases h : splitOnChar '@' (toLowerStr (trimSpace x)) with _ | ⟨u, _ | ⟨d, _ | ⟨e3, rest⟩⟩⟩
  · exact absurd h (splitOnChar_ne_nil _ _)
  · left
    rfl
  · dsimp only
    by_cases hgm : d = "gmail.com".data
    · right
      exact ⟨u, d, rfl, hgm, by rw [if_pos hgm]⟩
    · left
      rw [if_neg hgm]
  · left
    rfl

theorem NormalizeEmail_lower_fixed (x : GoStr) :
    ∀ c ∈ NormalizeEmail x, lowerChar c = c := by
  rcases NormalizeEmail_cases x with h | ⟨u, d, hsplit, hgm, h⟩
  · rw [h]
    intro c hc
    exact lowerChar_fixed_of_mem_toLower _ c hc
  · rw [h]
    intro c hc
    rcases List.mem_append.mp hc with hc | hc
    · have hu : c ∈ u := gmailUsername_subset u c hc
      obtain ⟨hs, _, _⟩ := splitOnChar_pair '@' _ u d hsplit
      have hmem : c ∈ toLowerStr (trimSpace x) := by
        rw [hs]
        exact List.mem_append.mpr (Or.inl hu)
      exact lowerChar_fixed_of_mem_toLower _ c hmem
    · have hall : ∀ a ∈ ('@' :: "gmail.com".data), lowerChar a = a := by decide
      exact hall c hc

/-- C6 (amended) NormalizeEmail is idempotent on every input whose normalized
form is unchanged by trimming; the gmail dot-stripping is the only step able
to break that premise, by exposing leading whitespace of the local part. -/
theorem normalize_idem_of_trim_fixed (x : GoStr)
    (H : trimSpace (NormalizeEmail x) = NormalizeEmail x) :
    NormalizeEmail (NormalizeEmail x) = NormalizeEmail x := by
  have hlow : toLowerStr (NormalizeEmail x) = NormalizeEmail x :=
    toLowerStr_eq_self _ (NormalizeEmail_lower_fixed x)
  rw [NormalizeEmail_eq (NormalizeEmail x), H, hlow]
  rcases h2 : splitOnChar '@' (NormalizeEmail x) with _ | ⟨u2, _ | ⟨d2, _ | ⟨e3, rest⟩⟩⟩
  · rfl
  · rfl
  · dsimp only
    by_cases hgm2 : d2 = "gmail.com".data
    · rw [if_pos hgm2]
      rcases NormalizeEmail_cases x with hy | ⟨u, d, hsplit, hgm, hy⟩
      · -- the first pass only trimmed and lowercased, so the second pass
        -- sees the same split and takes the same gmail branch
        rw [hy] at h2
        rw [NormalizeEmail_eq x, h2]
        dsimp only
        rw [if_pos hgm2]
      · -- the first pass took the gmail branch; the split of its output is
        -- [gmailUsername u, gmail.com] and gmailUsername is idempotent
        obtain ⟨hs, hu, hd⟩ := splitOnChar_pair '@' _ u d hsplit
        have hnu : '@' ∉ gmailUsername u := fun hm => hu (gmailUsername_subset u '@' hm)
        have hnd : '@' ∉ "gmail.com".data := by decide
        have hsy : splitOnChar '@' (NormalizeEmail x) =
            [gmailUsername u, "gmail.com".data] := by
          rw [hy]
          exact splitOnChar_pair_of '@' (gmailUsername u) "gmail.com".data hnu hnd
        rw [h2] at hsy
        simp only [List.cons.injEq, and_true] at hsy
        obtain ⟨hu2, hd2⟩ := hsy
        rw [hu2, gmailUsername_idem, hy]
    · rw [if_neg hgm2]
  · rfl

/-- C6 counterexample: on ". a@gmail.com" the gmail dot-stripping exposes a
leading space in the local part, so the first pass returns " a@gmail.com"
while the second pass trims that space away; NormalizeEmail is therefore not
idempotent as claimed. -/
theorem normalize_not_idempotent :
    NormalizeEmail (NormalizeEmail ". a@gmail.com".data) ≠
      NormalizeEmail ". a@gmail.com".data := by decide

/-- C6 witness: the amended idempotence theorem applied at the concrete
input A@B. -/
theorem normalize_idem_holds_witness :
    trimSpace (NormalizeEmail "A@B".data) = NormalizeEmail "A@B".data ∧
      NormalizeEmail (NormalizeEmail "A@B".data) = NormalizeEmail "A@B".data :=
  ⟨by decide, normalize_idem_of_trim_fixed _ (by decide)⟩

/-! The comparator (compareEmailEntries) and its data model. -/

/-- EmailEntry (email_validation.go lines 18-26). -/
structure EmailEntry where
  email : GoStr
  source : GoStr
  isValid : Bool
  isDisposable : Bool
  normalizedEmail : GoStr
  status : GoStr
  reason : GoStr
deriving DecidableEq, Repr

/-- ValidationSummary (email_validation.go lines 39-49).  All count fields
are Go ints that only ever hold list lengths and increments, modelled as
naturals; ProcessingTimeSeconds is a float64 written by the caller after the
comparison and is modelled as the zero it holds inside compareEmailEntries. -/
structure ValidationSummary where
  totalEmailsFirstFile : Nat
  totalEmailsSecondFile : Nat
  validEmailsFirstFile : Nat
  validEmailsSecondFile : Nat
  matchingCount : Nat
  missingInFirstCount : Nat
  missingInSecondCount : Nat
  disposableEmailsCount : Nat
  processingTimeSeconds : Nat
deriving DecidableEq, Repr

/-- A Go map from strings to entry values, modelled as an association list;
insertion updates an existing binding in place, iteration order is handled
separately (see compareEmailEntries). -/
abbrev GoMap (β : Type) := List (GoStr × β)

/-- Insertion m[k] = v into a Go map. -/
def mapUpsert {β : Type} (m : GoMap β) (k : GoStr) (v : β) : GoMap β :=
  match m with
  | [] => [(k, v)]
  | (k1, v1) :: rest =>
    if k1 = k then (k, v) :: rest else (k1, v1) :: mapUpsert rest k v

/-- Lookup m[k] in a Go map. -/
def mapLookup {β : Type} (m : GoMap β) (k : GoStr) : Option β :=
  match m with
  | [] => none
  | (k1, v1) :: rest => if k1 = k then some v1 else mapLookup rest k

/-- The map that the first loop of compareEmailEntries builds from a list of
entries, keyed by NormalizedEmail, with later duplicates overwriting. -/
def buildMap (entries : List EmailEntry) : GoMap EmailEntry :=
  entries.foldl (fun m e => mapUpsert m e.normalizedEmail e) []

/-- First loop of compareEmailEntries (lines 389-397): count valid entries
and build the first-file map. -/
def comparePassA : List EmailEntry → Nat → GoMap EmailEntry → Nat × GoMap EmailEntry
  | [], v, m => (v, m)
  | e :: rest, v, m =>
    comparePassA rest (if e.isValid then v + 1 else v) (mapUpsert m e.normalizedEmail e)

/-- Second loop of compareEmailEntries (lines 400-417): one pass over the
second file, emitting the first-file representative into matching when the
key is present, the second-file entry into missingInFirst otherwise, and
building the second-file map along the way. -/
def comparePassB (firstMap : GoMap EmailEntry) :
    List EmailEntry → Nat → List EmailEntry → List EmailEntry → GoMap EmailEntry →
      Nat × List EmailEntry × List EmailEntry × GoMap EmailEntry
  | [], v, matching, missingInFirst, secondMap => (v, matching, missingInFirst, secondMap)
  | e :: rest, v, matching, missingInFirst, secondMap =>
    let v2 := if e.isValid then v + 1 else v
    match mapLookup firstMap e.normalizedEmail with
    | some firstEntry =>
      comparePassB firstMap rest v2 (matching ++ [firstEntry]) missingInFirst
        (mapUpsert secondMap e.normalizedEmail e)
    | none =>
      comparePassB firstMap rest v2 matching (missingInFirst ++ [e])
        (mapUpsert secondMap e.normalizedEmail e)

/-- Result quadruple of compareEmailEntries. -/
structure CompareOutput where
  matching : List EmailEntry
  missingInFirst : List EmailEntry
  missingInSecond : List EmailEntry
  summary : ValidationSummary
deriving DecidableEq, Repr

/-- compareEmailEntries (email_validation.go lines 365-435).  The final loop
of the source ranges over the Go map firstMap, whose iteration order Go
leaves unspecified; it is passed here as iterOrder, which theorems constrain
to be a permutation of the map entries. -/
def compareEmailEntries (iterOrder : GoMap EmailEntry)
    (firstEntries secondEntries : List EmailEntry) : CompareOutput :=
  let a := comparePassA firstEntries 0 []
  let b := comparePassB a.2 secondEntries 0 [] [] []
  let missingInSecond :=
    (iterOrder.filter (fun kv => (mapLookup b.2.2.2 kv.1).isNone)).map (fun kv => kv.2)
  { matching := b.2.1
    missingInFirst := b.2.2.1
    missingInSecond := missingInSecond
    summary :=
      { totalEmailsFirstFile := firstEntries.length
        totalEmailsSecondFile := secondEntries.length
        validEmailsFirstFile := a.1
        validEmailsSecondFile := b.1
        matchingCount := b.2.1.length
        missingInFirstCount := b.2.2.1.length
        missingInSecondCount := missingInSecond.length
        disposableEmailsCount := 0
        processingTimeSeconds := 0 } }

/-- The list of normalized keys of a list of entries. -/
def keysOf (entries : List EmailEntry) : List GoStr :=
  entries.map (fun e => e.normalizedEmail)

/-- How many entries of the list carry the given normalized key. -/
def countKey (entries : List EmailEntry) (k : GoStr) : Nat :=
  (entries.filter (fun e => e.normalizedEmail == k)).length

/-- How many times a key occurs in a list of keys. -/
def countK (l : List GoStr) (k : GoStr) : Nat :=
  (l.filter (fun x => x == k)).length

theorem mapLookup_upsert {β : Type} (m : GoMap β) (k k1 : GoStr) (v : β) :
    mapLookup (mapUpsert m k v) k1 = if k = k1 then some v else mapLookup m k1 := by
  induction m with
  | nil => simp [mapUpsert, mapLookup]
  | cons p rest ih =>
    obtain ⟨k0, v0⟩ := p
    by_cases h0 : k0 = k
    · simp only [mapUpsert, if_pos h0, mapLookup]
      by_cases h1 : k = k1
      · rw [if_pos h1, if_pos h1]
      · rw [if_neg h1, if_neg h1, if_neg (fun he => h1 (h0.symm.trans he))]
    · simp only [mapUpsert, if_neg h0, mapLookup]
      by_cases h1 : k0 = k1
      · rw [if_pos h1, if_neg (fun he : k = k1 => h0 (h1.trans he.symm)), if_pos h1]
      · rw [if_neg h1, if_neg h1, ih]

theorem mem_mapUpsert {β : Type} (m : GoMap β) (k : GoStr) (v : β) (kv : GoStr × β)
    (h : kv ∈ mapUpsert m k v) : kv = (k, v) ∨ kv ∈ m := by
  induction m with
  | nil => simpa [mapUpsert] using h
  | cons p rest ih =>
    obtain ⟨k0, v0⟩ := p
    unfold mapUpsert at h
    split_ifs at h with h0
    · rcases List.mem_cons.mp h with h1 | h1
      · exact Or.inl h1
      · exact Or.inr (List.mem_cons_of_mem _ h1)
    · rcases List.mem_cons.mp h with h1 | h1
      · exact Or.inr (h1 ▸ List.mem_cons_self _ _)
      · rcases ih h1 with h2 | h2
        · exact Or.inl h2
        · exact Or.inr (List.mem_cons_of_mem _ h2)

theorem mapUpsert_keys {β : Type} (m : GoMap β) (k : GoStr) (v : β) :
    (mapUpsert m k v).map Prod.fst =
      if k ∈ m.map Prod.fst then m.map Prod.fst else m.map Prod.fst ++ [k] := by
  induction m with
  | nil => simp [mapUpsert]
  | cons p rest ih =>
    obtain ⟨k0, v0⟩ := p
    by_cases h0 : k0 = k
    · have hstep : mapUpsert ((k0, v0) :: rest) k v = (k, v) :: rest := by
        unfold mapUpsert
        rw [if_pos h0]
      have hcond : k ∈ ((k0, v0) :: rest).map Prod.fst := by
        rw [List.map_cons]
        exact List.mem_cons.mpr (Or.inl h0.symm)
      rw [hstep, if_pos hcond]
      rw [List.map_cons, List.map_cons, h0]
    · have hne : ¬k = k0 := fun he => h0 he.symm
      simp only [mapUpsert, if_neg h0, List.map_cons, List.mem_cons, hne, false_or, ih]
      by_cases hm : k ∈ rest.map Prod.fst
      · simp [hm]
      · simp [hm]

theorem mapUpsert_keys_nodup {β : Type} (m : GoMap β) (k : GoStr) (v : β)
    (h : (m.map Prod.fst).Nodup) : ((mapUpsert m k v).map Prod.fst).Nodup := by
  rw [mapUpsert_keys]
  split_ifs with hm
  · exact h
  · simp [List.nodup_append, h, hm]

theorem comparePassA_map (es : List EmailEntry) (v : Nat) (m : GoMap EmailEntry) :
    (comparePassA es v m).2 =
      es.foldl (fun m e => mapUpsert m e.normalizedEmail e) m := by
  induction es generalizing v m with
  | nil => rfl
  | cons e rest ih => simp [comparePassA, ih]

theorem foldl_upsert_lookup_key (es : List EmailEntry) (m : GoMap EmailEntry)
    (k : GoStr) (v : EmailEntry)
    (hm : ∀ k1 v1, mapLookup m k1 = some v1 → v1.normalizedEmail = k1)
    (h : mapLookup (es.foldl (fun m e => mapUpsert m e.normalizedEmail e) m) k = some v) :
    v.normalizedEmail = k := by
  induction es generalizing m with
  | nil => exact hm k v h
  | cons e rest ih =>
    simp only [List.foldl_cons] at h
    refine ih (mapUpsert m e.normalizedEmail e) ?_ h
    intro k1 v1 h1
    rw [mapLookup_upsert] at h1
    split_ifs at h1 with he
    · cases h1
      exact he
    · exact hm k1 v1 h1

theorem lookup_buildMap_key (es : List EmailEntry) (k : GoStr) (v : EmailEntry)
    (h : mapLookup (buildMap es) k = some v) : v.normalizedEmail = k := by
  refine foldl_upsert_lookup_key es [] k v ?_ h
  intro k1 v1 h1
  simp [mapLookup] at h1

theorem lookup_foldl_isSome (es : List EmailEntry) (m : GoMap EmailEntry) (k : GoStr) :
    (mapLookup (es.foldl (fun m e => mapUpsert m e.normalizedEmail e) m) k).isSome = true ↔
      k ∈ keysOf es ∨ (mapLookup m k).isSome = true := by
  induction es generalizing m with
  | nil => simp [keysOf]
  | cons e rest ih =>
    simp only [List.foldl_cons, keysOf, List.map_cons, List.mem_cons]
    rw [ih]
    rw [mapLookup_upsert]
    by_cases he : e.normalizedEmail = k
    · simp [he]
    · have hne : ¬k = e.normalizedEmail := fun h1 => he h1.symm
      simp [he, hne, keysOf]

theorem lookup_buildMap_isSome (es : List EmailEntry) (k : GoStr) :
    (mapLookup (buildMap es) k).isSome = true ↔ k ∈ keysOf es := by
  unfold buildMap
  rw [lookup_foldl_isSome]
  simp [mapLookup]

theorem foldl_upsert_keys_nodup (es : List EmailEntry) (m : GoMap EmailEntry)
    (h : (m.map Prod.fst).Nodup) :
    ((es.foldl (fun m e => mapUpsert m e.normalizedEmail e) m).map Prod.fst).Nodup := by
  induction es generalizing m with
  | nil => exact h
  | cons e rest ih =>
    simp only [List.foldl_cons]
    exact ih _ (mapUpsert_keys_nodup m e.normalizedEmail e h)

theorem buildMap_keys_nodup (es : List EmailEntry) :
    ((buildMap es).map Prod.fst).Nodup :=
  foldl_upsert_keys_nodup es [] (by simp)

theorem foldl_upsert_binding (es : List EmailEntry) (m : GoMap EmailEntry)
    (hm : ∀ kv ∈ m, (kv : GoStr × EmailEntry).2.normalizedEmail = kv.1)
    (kv : GoStr × EmailEntry)
    (h : kv ∈ es.foldl (fun m e => mapUpsert m e.normalizedEmail e) m) :
    kv.2.normalizedEmail = kv.1 := by
  induction es generalizing m with
  | nil => exact hm kv h
  | cons e rest ih =>
    simp only [List.foldl_cons] at h
    refine ih (mapUpsert m e.normalizedEmail e) ?_ h
    intro kv1 h1
    rcases mem_mapUpsert m e.normalizedEmail e kv1 h1 with h2 | h2
    · rw [h2]
    · exact hm kv1 h2

theorem buildMap_binding (es : List EmailEntry) (kv : GoStr × EmailEntry)
    (h : kv ∈ buildMap es) : kv.2.normalizedEmail = kv.1 :=
  foldl_upsert_binding es [] (by simp) kv h

theorem comparePassB_spec (fm : GoMap EmailEntry) (es : List EmailEntry)
    (v : Nat) (mat mif : List EmailEntry) (sm : GoMap EmailEntry) :
    comparePassB fm es v mat mif sm =
      (v + (es.filter (fun e => e.isValid)).length,
       mat ++ es.filterMap (fun e => mapLookup fm e.normalizedEmail),
       mif ++ es.filter (fun e => (mapLookup fm e.normalizedEmail).isNone),
       es.foldl (fun m e => mapUpsert m e.normalizedEmail e) sm) := by
  induction es generalizing v mat mif sm with
  | nil => simp [comparePassB]
  | cons e rest ih =>
    unfold comparePassB
    dsimp only
    rcases hl : mapLookup fm e.normalizedEmail with _ | fe
    · dsimp only
      rw [ih]
      simp only [List.filter_cons, List.filterMap_cons, hl, Option.isNone_none,
        List.foldl_cons, List.append_assoc, List.singleton_append, Prod.mk.injEq]
      cases hv : e.isValid <;> simp <;> omega
    · dsimp only
      rw [ih]
      simp only [List.filter_cons, List.filterMap_cons, hl, Option.isNone_some,
        List.foldl_cons, List.append_assoc, List.singleton_append, Prod.mk.injEq]
      cases hv : e.isValid <;> simp <;> omega

theorem compare_matching_eq (iter : GoMap EmailEntry)
    (A B : List EmailEntry) :
    (compareEmailEntries iter A B).matching =
      B.filterMap (fun e => mapLookup (buildMap A) e.normalizedEmail) := by
  unfold compareEmailEntries
  dsimp only
  rw [comparePassB_spec, comparePassA_map]
  simp [buildMap]

theorem compare_missingInFirst_eq (iter : GoMap EmailEntry)
    (A B : List EmailEntry) :
    (compareEmailEntries iter A B).missingInFirst =
      B.filter (fun e => (mapLookup (buildMap A) e.normalizedEmail).isNone) := by
  unfold compareEmailEntries
  dsimp only
  rw [comparePassB_spec, comparePassA_map]
  simp [buildMap]

theorem compare_missingInSecond_eq (iter : GoMap EmailEntry)
    (A B : List EmailEntry) :
    (compareEmailEntries iter A B).missingInSecond =
      (iter.filter (fun kv => (mapLookup (buildMap B) kv.1).isNone)).map
        (fun kv => kv.2) := by
  unfold compareEmailEntries
  dsimp only
  rw [comparePassB_spec]
  simp [buildMap]

/-! Counting lemmas for the comparator partition law. -/

theorem countK_cons (k x : GoStr) (l : List GoStr) :
    countK (x :: l) k = (if x = k then 1 else 0) + countK l k := by
  unfold countK
  rw [List.filter_cons]
  by_cases hx : x = k
  · simp [hx]
    omega
  · simp [hx]

theorem countK_eq_zero (l : List GoStr) (k : GoStr) (h : k ∉ l) : countK l k = 0 := by
  induction l with
  | nil => rfl
  | cons x rest ih =>
    rw [countK_cons]
    have hx : ¬x = k := fun he => h (he ▸ List.mem_cons_self x rest)
    rw [if_neg hx, ih (fun hm => h (List.mem_cons_of_mem x hm))]

theorem mem_of_countK_ne_zero (l : List GoStr) (k : GoStr) (h : countK l k ≠ 0) :
    k ∈ l := by
  by_contra hm
  exact h (countK_eq_zero l k hm)

theorem countK_ne_zero_of_mem (l : List GoStr) (k : GoStr) (h : k ∈ l) :
    countK l k ≠ 0 := by
  induction l with
  | nil => simp at h
  | cons x rest ih =>
    rw [countK_cons]
    rcases List.mem_cons.mp h with h1 | h1
    · rw [if_pos h1.symm]
      omega
    · have := ih h1
      omega

theorem countK_nodup_mem (l : List GoStr) (k : GoStr) (hnd : l.Nodup) (hm : k ∈ l) :
    countK l k = 1 := by
  induction l with
  | nil => simp at hm
  | cons x rest ih =>
    rw [countK_cons]
    rcases List.mem_cons.mp hm with h1 | h1
    · rw [if_pos h1.symm]
      have hx : k ∉ rest := h1 ▸ (List.nodup_cons.mp hnd).1
      rw [countK_eq_zero rest k hx]
    · have hx : ¬x = k := fun he => (List.nodup_cons.mp hnd).1 (he ▸ h1)
      rw [if_neg hx, ih (List.nodup_cons.mp hnd).2 h1]

theorem countK_perm (l1 l2 : List GoStr) (k : GoStr) (h : l1.Perm l2) :
    countK l1 k = countK l2 k := by
  unfold countK
  exact (h.filter _).length_eq

theorem countKey_cons (e : EmailEntry) (l : List EmailEntry) (k : GoStr) :
    countKey (e :: l) k = (if e.normalizedEmail = k then 1 else 0) + countKey l k := by
  unfold countKey
  rw [List.filter_cons]
  by_cases hx : e.normalizedEmail = k
  · simp [hx]
    omega
  · simp [hx]

theorem countKey_eq (es : List EmailEntry) (k : GoStr) :
    countKey es k = countK (keysOf es) k := by
  induction es with
  | nil => rfl
  | cons e rest ih =>
    rw [countKey_cons, ih]
    simp only [keysOf, List.map_cons]
    rw [countK_cons]

theorem mem_keysOf_iff_countKey (es : List EmailEntry) (k : GoStr) :
    k ∈ keysOf es ↔ countKey es k ≠ 0 := by
  rw [countKey_eq]
  constructor
  · exact countK_ne_zero_of_mem (keysOf es) k
  · exact mem_of_countK_ne_zero (keysOf es) k

theorem countKey_filterMap_lookup (A B : List EmailEntry) (k : GoStr) :
    countKey (B.filterMap (fun e => mapLookup (buildMap A) e.normalizedEmail)) k =
      if k ∈ keysOf A then countK (keysOf B) k else 0 := by
  induction B with
  | nil => simp [countKey, keysOf, countK]
  | cons e rest ih =>
    rw [List.filterMap_cons]
    rcases hl : mapLookup (buildMap A) e.normalizedEmail with _ | fe
    · have hmem : e.normalizedEmail ∉ keysOf A := by
        intro hm
        have := (lookup_buildMap_isSome A e.normalizedEmail).mpr hm
        rw [hl] at this
        simp at this
      rw [ih]
      by_cases hk : k ∈ keysOf A
      · rw [if_pos hk, if_pos hk]
        have hne : ¬e.normalizedEmail = k := fun he => hmem (he ▸ hk)
        simp only [keysOf, List.map_cons]
        rw [countK_cons, if_neg hne]
        omega
      · rw [if_neg hk, if_neg hk]
    · have hkey : fe.normalizedEmail = e.normalizedEmail := lookup_buildMap_key A _ fe hl
      have hmem : e.normalizedEmail ∈ keysOf A := by
        rw [← lookup_buildMap_isSome, hl]
        rfl
      rw [countKey_cons, ih]
      by_cases hk : e.normalizedEmail = k
      · have hkA : k ∈ keysOf A := hk ▸ hmem
        rw [if_pos hkA, if_pos hkA, if_pos (hkey.trans hk)]
        simp only [keysOf, List.map_cons]
        rw [countK_cons, if_pos hk]
      · have hfe : ¬fe.normalizedEmail = k := fun he => hk (hkey.symm.trans he)
        rw [if_neg hfe]
        by_cases hkA : k ∈ keysOf A
        · rw [if_pos hkA, if_pos hkA]
          simp only [keysOf, List.map_cons]
          rw [countK_cons, if_neg hk]
        · rw [if_neg hkA, if_neg hkA]

theorem countKey_filter_isNone (A B : List EmailEntry) (k : GoStr) :
    countKey
        (B.filter (fun e => (mapLookup (buildMap A) e.normalizedEmail).isNone)) k =
      if k ∈ keysOf A then 0 else countK (keysOf B) k := by
  induction B with
  | nil => simp [countKey, keysOf, countK]
  | cons e rest ih =>
    rw [List.filter_cons]
    rcases hl : mapLookup (buildMap A) e.normalizedEmail with _ | fe
    · have hmem : e.normalizedEmail ∉ keysOf A := by
        intro hm
        have := (lookup_buildMap_isSome A e.normalizedEmail).mpr hm
        rw [hl] at this
        simp at this
      simp only [Option.isNone_none, if_true]
      rw [countKey_cons, ih]
      by_cases hk : k ∈ keysOf A
      · rw [if_pos hk, if_pos hk]
        have hne : ¬e.normalizedEmail = k := fun he => hmem (he ▸ hk)
        rw [if_neg hne]
      · rw [if_neg hk, if_neg hk]
        simp only [keysOf, List.map_cons]
        rw [countK_cons]
    · have hmem : e.normalizedEmail ∈ keysOf A := by
        rw [← lookup_buildMap_isSome, hl]
        rfl
      simp only [Option.isNone_some]
      rw [if_neg (by simp), ih]
      by_cases hk : k ∈ keysOf A
      · rw [if_pos hk, if_pos hk]
      · rw [if_neg hk, if_neg hk]
        have hne : ¬e.normalizedEmail = k := fun he => hk (he ▸ hmem)
        simp only [keysOf, List.map_cons]
        rw [countK_cons, if_neg hne]
        omega

theorem map_fst_filter_fstPred {β : Type} (l : GoMap β) (q : GoStr → Bool) :
    (l.filter (fun kv => q kv.1)).map Prod.fst = (l.map Prod.fst).filter q := by
  induction l with
  | nil => rfl
  | cons kv rest ih =>
    rw [List.filter_cons, List.map_cons, List.filter_cons]
    by_cases hq : q kv.1
    · rw [if_pos hq, if_pos hq, List.map_cons, ih]
    · rw [if_neg hq, if_neg hq, ih]

theorem keysOf_map_snd (l : GoMap EmailEntry)
    (hb : ∀ kv ∈ l, (kv : GoStr × EmailEntry).2.normalizedEmail = kv.1) :
    keysOf (l.map (fun kv => kv.2)) = l.map Prod.fst := by
  induction l with
  | nil => rfl
  | cons kv rest ih =>
    simp only [keysOf, List.map_cons, List.map_map] at ih ⊢
    rw [hb kv (List.mem_cons_self kv rest)]
    have := ih (fun kv1 hm => hb kv1 (List.mem_cons_of_mem kv hm))
    simp only [keysOf, List.map_map] at this
    rw [this]

theorem mapLookup_isSome_iff_mem {β : Type} (m : GoMap β) (k : GoStr) :
    (mapLookup m k).isSome = true ↔ k ∈ m.map Prod.fst := by
  induction m with
  | nil => simp [mapLookup]
  | cons p rest ih =>
    obtain ⟨k0, v0⟩ := p
    have heq : mapLookup ((k0, v0) :: rest) k =
        if k0 = k then some v0 else mapLookup rest k := rfl
    by_cases h0 : k0 = k
    · rw [heq, if_pos h0, List.map_cons]
      constructor
      · intro _
        exact List.mem_cons.mpr (Or.inl h0.symm)
      · intro _
        rfl
    · rw [heq, if_neg h0, ih, List.map_cons]
      constructor
      · exact fun hm => List.mem_cons_of_mem k0 hm
      · intro hm
        rcases List.mem_cons.mp hm with h1 | h1
        · exact absurd h1.symm h0
        · exact h1

theorem countK_filter (l : List GoStr) (q : GoStr → Bool) (k : GoStr) :
    countK (l.filter q) k = if q k then countK l k else 0 := by
  induction l with
  | nil =>
    simp only [List.filter_nil]
    split_ifs <;> rfl
  | cons x rest ih =>
    rw [List.filter_cons]
    by_cases hq : q x
    · rw [if_pos hq, countK_cons, ih, countK_cons]
      by_cases hqk : q k
      · rw [if_pos hqk, if_pos hqk]
      · rw [if_neg hqk, if_neg hqk]
        have hx : ¬x = k := fun he => hqk (he ▸ hq)
        rw [if_neg hx]
    · rw [if_neg hq, ih]
      by_cases hqk : q k
      · rw [if_pos hqk, if_pos hqk, countK_cons]
        have hx : ¬x = k := fun he => hq (he ▸ hqk)
        rw [if_neg hx]
        omega
      · rw [if_neg hqk, if_neg hqk]

theorem countKey_missingInSecond (A B : List EmailEntry) (iter : GoMap EmailEntry)
    (hiter : iter.Perm (buildMap A)) (k : GoStr) :
    countKey ((iter.filter (fun kv => (mapLookup (buildMap B) kv.1).isNone)).map
        (fun kv => kv.2)) k =
      if k ∈ keysOf A ∧ k ∉ keysOf B then 1 else 0 := by
  have hb : ∀ kv ∈ iter.filter (fun kv => (mapLookup (buildMap B) kv.1).isNone),
      (kv : GoStr × EmailEntry).2.normalizedEmail = kv.1 := by
    intro kv hm
    exact buildMap_binding A kv (hiter.mem_iff.mp (List.mem_filter.mp hm).1)
  rw [countKey_eq, keysOf_map_snd _ hb,
    map_fst_filter_fstPred iter (fun x => (mapLookup (buildMap B) x).isNone),
    countK_filter]
  have hperm : (iter.map Prod.fst).Perm ((buildMap A).map Prod.fst) := hiter.map _
  have hmemA : ∀ k1 : GoStr, k1 ∈ (buildMap A).map Prod.fst ↔ k1 ∈ keysOf A := by
    intro k1
    rw [← mapLookup_isSome_iff_mem, lookup_buildMap_isSome]
  by_cases hq : (mapLookup (buildMap B) k).isNone
  · have hnB : k ∉ keysOf B := by
      intro hm
      have hs := (lookup_buildMap_isSome B k).mpr hm
      rw [Option.isNone_iff_eq_none] at hq
      rw [hq] at hs
      simp at hs
    rw [if_pos hq, countK_perm _ _ k hperm]
    by_cases hkA : k ∈ keysOf A
    · rw [if_pos ⟨hkA, hnB⟩]
      exact countK_nodup_mem _ _ (buildMap_keys_nodup A) ((hmemA k).mpr hkA)
    · rw [if_neg (fun hc => hkA hc.1)]
      exact countK_eq_zero _ _ (fun hm => hkA ((hmemA k).mp hm))
  · rw [if_neg hq]
    have hkB : k ∈ keysOf B := by
      rw [← lookup_buildMap_isSome]
      rcases hopt : mapLookup (buildMap B) k with _ | v
      · rw [hopt] at hq
        simp at hq
      · rfl
    rw [if_neg (fun hc => hc.2 hkB)]

/-- A sample entry carrying the given normalized key, used in concrete checks. -/
def sampleEntry (key : GoStr) : EmailEntry :=
  { email := key, source := [], isValid := true, isDisposable := false
    normalizedEmail := key, status := [], reason := [] }

/-- C1 (amended) For any admissible iteration order of the first-file map
and any file B whose normalized keys are pairwise distinct: every key in both
files appears exactly once in matched, every key only in B exactly once in
missingInFirst, every key only in A exactly once in missingInSecond, and the
three partitions are pairwise disjoint by key (disjointness and the
missingInSecond count need no distinctness assumption; with duplicate keys in
B, matched and missingInFirst instead repeat the key once per duplicate). -/
theorem compare_partition (A B : List EmailEntry) (iter : GoMap EmailEntry)
    (hiter : iter.Perm (buildMap A)) (hB : (keysOf B).Nodup) :
    (∀ k, k ∈ keysOf A → k ∈ keysOf B →
      countKey (compareEmailEntries iter A B).matching k = 1) ∧
    (∀ k, k ∈ keysOf B → k ∉ keysOf A →
      countKey (compareEmailEntries iter A B).missingInFirst k = 1) ∧
    (∀ k, k ∈ keysOf A → k ∉ keysOf B →
      countKey (compareEmailEntries iter A B).missingInSecond k = 1) ∧
    (∀ k, ¬(k ∈ keysOf (compareEmailEntries iter A B).matching ∧
      k ∈ keysOf (compareEmailEntries iter A B).missingInFirst)) ∧
    (∀ k, ¬(k ∈ keysOf (compareEmailEntries iter A B).matching ∧
      k ∈ keysOf (compareEmailEntries iter A B).missingInSecond)) ∧
    (∀ k, ¬(k ∈ keysOf (compareEmailEntries iter A B).missingInFirst ∧
      k ∈ keysOf (compareEmailEntries iter A B).missingInSecond)) := by
  have hmat : ∀ k, k ∈ keysOf (compareEmailEntries iter A B).matching →
      k ∈ keysOf A ∧ k ∈ keysOf B := by
    intro k hm
    have hc := (mem_keysOf_iff_countKey _ k).mp hm
    rw [compare_matching_eq, countKey_filterMap_lookup] at hc
    by_cases hkA : k ∈ keysOf A
    · rw [if_pos hkA] at hc
      exact ⟨hkA, mem_of_countK_ne_zero _ _ hc⟩
    · rw [if_neg hkA] at hc
      exact absurd rfl hc
  have hmif : ∀ k, k ∈ keysOf (compareEmailEntries iter A B).missingInFirst →
      k ∉ keysOf A := by
    intro k hm
    have hc := (mem_keysOf_iff_countKey _ k).mp hm
    rw [compare_missingInFirst_eq, countKey_filter_isNone] at hc
    intro hkA
    rw [if_pos hkA] at hc
    exact hc rfl
  have hmis : ∀ k, k ∈ keysOf (compareEmailEntries iter A B).missingInSecond →
      k ∈ keysOf A ∧ k ∉ keysOf B := by
    intro k hm
    have hc := (mem_keysOf_iff_countKey _ k).mp hm
    rw [compare_missingInSecond_eq, countKey_missingInSecond A B iter hiter] at hc
    by_cases hcond : k ∈ keysOf A ∧ k ∉ keysOf B
    · exact hcond
    · rw [if_neg hcond] at hc
      exact absurd rfl hc
  refine ⟨?_, ?_, ?_, ?_, ?_, ?_⟩
  · intro k hkA hkB
    rw [compare_matching_eq, countKey_filterMap_lookup, if_pos hkA]
    exact countK_nodup_mem _ _ hB hkB
  · intro k hkB hkA
    rw [compare_missingInFirst_eq, countKey_filter_isNone, if_neg hkA]
    exact countK_nodup_mem _ _ hB hkB
  · intro k hkA hkB
    rw [compare_missingInSecond_eq, countKey_missingInSecond A B iter hiter,
      if_pos ⟨hkA, hkB⟩]
  · intro k hk
    exact hmif k hk.2 (hmat k hk.1).1
  · intro k hk
    exact (hmis k hk.2).2 (hmat k hk.1).2
  · intro k hk
    exact hmif k hk.1 (hmis k hk.2).1

/-- C1 counterexample: with a duplicated key in file B, a key present in both
files appears twice in matched (once per file-B occurrence), not exactly
once. -/
theorem compare_partition_cex :
    "k".data ∈ keysOf [sampleEntry "k".data] ∧
    "k".data ∈ keysOf [sampleEntry "k".data, sampleEntry "k".data] ∧
    countKey
        (compareEmailEntries (buildMap [sampleEntry "k".data])
          [sampleEntry "k".data]
          [sampleEntry "k".data, sampleEntry "k".data]).matching "k".data = 2 := by
  decide

/-- C1 witness: the amended partition law applied to one-entry files sharing
the key a, whose matched partition then holds that key exactly once. -/
theorem compare_partition_witness :
    (keysOf [sampleEntry "a".data]).Nodup ∧
    countKey
        (compareEmailEntries (buildMap [sampleEntry "a".data])
          [sampleEntry "a".data] [sampleEntry "a".data]).matching "a".data = 1 :=
  ⟨by decide,
    (compare_partition [sampleEntry "a".data] [sampleEntry "a".data]
        (buildMap [sampleEntry "a".data]) (List.Perm.refl _) (by decide)).1
      "a".data (by decide) (by decide)⟩

/-- C3 (amended) For every admissible iteration order: matched and
missingInFirst follow file B input order (matched holding the file A
representative for each matching B entry); missingInSecond holds exactly the
first-map representatives whose keys are absent from B, but only up to
permutation, in unspecified Go map iteration order. -/
theorem compare_output_order (A B : List EmailEntry) (iter : GoMap EmailEntry)
    (hiter : iter.Perm (buildMap A)) :
    (compareEmailEntries iter A B).matching =
      B.filterMap (fun e => mapLookup (buildMap A) e.normalizedEmail) ∧
    (compareEmailEntries iter A B).missingInFirst =
      B.filter (fun e => (mapLookup (buildMap A) e.normalizedEmail).isNone) ∧
    ((compareEmailEntries iter A B).missingInSecond).Perm
      (((buildMap A).filter (fun kv => (mapLookup (buildMap B) kv.1).isNone)).map
        (fun kv => kv.2)) := by
  refine ⟨compare_matching_eq iter A B, compare_missingInFirst_eq iter A B, ?_⟩
  rw [compare_missingInSecond_eq]
  exact (hiter.filter _).map _

/-- C3 counterexample: an admissible iteration order of the first-file map
that lists its entries in reverse makes missingInSecond come out in the
reverse of file A input order, so onlyInA does not follow file A order. -/
theorem compare_output_order_cex :
    ([("k2".data, sampleEntry "k2".data), ("k1".data, sampleEntry "k1".data)] :
        GoMap EmailEntry).Perm
      (buildMap [sampleEntry "k1".data, sampleEntry "k2".data]) ∧
    (compareEmailEntries
        [("k2".data, sampleEntry "k2".data), ("k1".data, sampleEntry "k1".data)]
        [sampleEntry "k1".data, sampleEntry "k2".data] []).missingInSecond ≠
      [sampleEntry "k1".data, sampleEntry "k2".data] := by
  constructor
  · decide
  · decide

/-- C3 witness: the amended order theorem applied to concrete one-entry
files. -/
theorem compare_output_order_witness :
    (compareEmailEntries (buildMap [sampleEntry "a".data]) [sampleEntry "a".data]
        [sampleEntry "b".data]).matching =
      [sampleEntry "b".data].filterMap
        (fun e => mapLookup (buildMap [sampleEntry "a".data]) e.normalizedEmail) :=
  (compare_output_order [sampleEntry "a".data] [sampleEntry "b".data]
      (buildMap [sampleEntry "a".data]) (List.Perm.refl _)).1

/-! The concurrent batch validator (ValidateEmailsBatch). -/

/-- One execution of the worker pool of ValidateEmailsBatch (email_validation
lines 880-937): the workers drain the index queue, each claimed index idx
writing ValidateEmailDetailed(emails[idx]) into slot idx of the pre-sized
result slice.  Writes touch pairwise distinct slots, so every interleaving is
equivalent to processing the claimed indices in some sequential order, which
this function takes as the order argument. -/
def processSchedule (emails : List GoStr) : List Nat →
    List EmailValidationResult → List EmailValidationResult
  | [], results => results
  | idx :: rest, results =>
    processSchedule emails rest
      (results.set idx (ValidateEmailDetailed (emails.getD idx [])))

/-- ValidateEmailsBatch: jobs are queued in index order over a zero-valued
pre-sized slice; the batch theorem below covers every processing order. -/
def ValidateEmailsBatch (emails : List GoStr) : List EmailValidationResult :=
  processSchedule emails (List.range emails.length)
    (List.replicate emails.length zeroResult)

theorem processSchedule_length (emails : List GoStr) (order : List Nat)
    (results : List EmailValidationResult) :
    (processSchedule emails order results).length = results.length := by
  induction order generalizing results with
  | nil => rfl
  | cons idx rest ih =>
    unfold processSchedule
    rw [ih, List.length_set]

theorem processSchedule_getElem (emails : List GoStr) (order : List Nat)
    (results : List EmailValidationResult) (i : Nat) :
    (processSchedule emails order results)[i]? =
      if i ∈ order ∧ i < results.length then
        some (ValidateEmailDetailed (emails.getD i []))
      else results[i]? := by
  induction order generalizing results with
  | nil => simp [processSchedule]
  | cons idx rest ih =>
    unfold processSchedule
    rw [ih, List.length_set]
    by_cases hmem : i ∈ rest
    · by_cases hlen : i < results.length
      · rw [if_pos ⟨hmem, hlen⟩, if_pos ⟨List.mem_cons_of_mem idx hmem, hlen⟩]
      · rw [if_neg (fun hc => hlen hc.2), if_neg (fun hc => hlen hc.2),
          List.getElem?_set]
        have hnone := List.getElem?_eq_none (l := results) (n := i) (by omega)
        split_ifs with hidx hl2
        · omega
        · rw [hnone]
        · rfl
    · rw [if_neg (fun hc => hmem hc.1), List.getElem?_set]
      by_cases hidx : idx = i
      · subst hidx
        have hmemc : idx ∈ idx :: rest := List.mem_cons_self idx rest
        by_cases hlen : idx < results.length
        · rw [if_pos rfl, if_pos hlen, if_pos ⟨hmemc, hlen⟩]
        · rw [if_pos rfl, if_neg hlen, if_neg (fun hc => hlen hc.2)]
          have := List.getElem?_eq_none (l := results) (n := idx) (by omega)
          rw [this]
      · rw [if_neg hidx, if_neg ?_]
        intro hc
        rcases List.mem_cons.mp hc.1 with h1 | h1
        · exact hidx h1.symm
        · exact hmem h1

theorem validate_email_field (y : GoStr) :
    (ValidateEmailDetailed y).email = trimSpace y := by
  unfold ValidateEmailDetailed
  dsimp only
  split_ifs <;> rfl

theorem validate_not_disposable (y : GoStr) :
    (ValidateEmailDetailed y).isDisposable = false := by
  unfold ValidateEmailDetailed
  dsimp only
  split_ifs <;> rfl

/-- C2 (amended) For every processing order of the worker pool that covers
each queued index exactly once, the batch result has the same length as the
input and slot i holds the classification of input i; the stored email field
is the input with surrounding whitespace trimmed (equal to the input exactly
when the input carries no surrounding whitespace). -/
theorem batch_order_preserved (xs : List GoStr) (order : List Nat)
    (hord : order.Perm (List.range xs.length)) :
    (processSchedule xs order (List.replicate xs.length zeroResult)).length =
        xs.length ∧
    ∀ i, i < xs.length →
      (processSchedule xs order (List.replicate xs.length zeroResult)).getD i
          zeroResult = ValidateEmailDetailed (xs.getD i []) ∧
      ((processSchedule xs order (List.replicate xs.length zeroResult)).getD i
          zeroResult).email = trimSpace (xs.getD i []) := by
  constructor
  · rw [processSchedule_length, List.length_replicate]
  · intro i hi
    have hmem : i ∈ order := hord.mem_iff.mpr (List.mem_range.mpr hi)
    have hget := processSchedule_getElem xs order
      (List.replicate xs.length zeroResult) i
    rw [List.length_replicate, if_pos ⟨hmem, hi⟩] at hget
    have hgetD : (processSchedule xs order
        (List.replicate xs.length zeroResult)).getD i zeroResult =
        ValidateEmailDetailed (xs.getD i []) := by
      rw [List.getD_eq_getElem?_getD, hget]
      rfl
    exact ⟨hgetD, by rw [hgetD, validate_email_field]⟩

/-- C2 counterexample: the entry stored for input " a@b " carries the trimmed
email "a@b", not the original input string. -/
theorem batch_email_not_original :
    ((ValidateEmailsBatch [" a@b ".data]).getD 0 zeroResult).email ≠
      " a@b ".data := by
  decide

/-- C2 witness: the amended batch theorem applied to the one-element input
with the singleton schedule. -/
theorem batch_order_preserved_witness :
    (([0] : List Nat).Perm (List.range (["a@b".data] : List GoStr).length)) ∧
    (processSchedule ["a@b".data] [0]
        (List.replicate (["a@b".data] : List GoStr).length zeroResult)).length =
      (["a@b".data] : List GoStr).length :=
  ⟨by decide, (batch_order_preserved ["a@b".data] [0] (by decide)).1⟩

/-- C10 Nothing in the pipeline ever sets a disposable flag: every entry of
ValidateEmailDetailed and of any worker-pool execution of ValidateEmailsBatch
has isDisposable false, and compareEmailEntries always reports a disposable
count of zero. -/
theorem disposable_never_set :
    (∀ x : GoStr, (ValidateEmailDetailed x).isDisposable = false) ∧
    (∀ xs : List GoStr, ∀ order : List Nat,
      (processSchedule xs order (List.replicate xs.length zeroResult)).all
        (fun r => !r.isDisposable) = true) ∧
    (∀ xs : List GoStr,
      (ValidateEmailsBatch xs).all (fun r => !r.isDisposable) = true) ∧
    (∀ iter : GoMap EmailEntry, ∀ A B : List EmailEntry,
      (compareEmailEntries iter A B).summary.disposableEmailsCount = 0) := by
  have hsched : ∀ xs : List GoStr, ∀ order : List Nat,
      ∀ results : List EmailValidationResult,
      (∀ r ∈ results, r.isDisposable = false) →
      ∀ r ∈ processSchedule xs order results, r.isDisposable = false := by
    intro xs order
    induction order with
    | nil => exact fun results h => h
    | cons idx rest ih =>
      intro results h
      refine ih _ ?_
      intro r hr
      rcases List.mem_or_eq_of_mem_set hr with h1 | h1
      · exact h r h1
      · rw [h1]
        exact validate_not_disposable _
  have hinit : ∀ n : Nat, ∀ r ∈ List.replicate n zeroResult,
      r.isDisposable = false := by
    intro n r hr
    rw [List.eq_of_mem_replicate hr]
    rfl
  refine ⟨validate_not_disposable, ?_, ?_, fun iter A B => rfl⟩
  · intro xs order
    rw [List.all_eq_true]
    intro r hr
    have := hsched xs order _ (hinit xs.length) r hr
    simp [this]
  · intro xs
    rw [List.all_eq_true]
    intro r hr
    have := hsched xs (List.range xs.length) _ (hinit xs.length) r hr
    simp [this]

/-! The expiring cache (utils cache, Set lines 716-724, Get lines 727-748). -/

/-- A cache item: the stored value and its absolute expiration instant.
Instants are modelled as naturals in a fixed unit (say milliseconds). -/
structure CacheItem (α : Type) where
  value : α
  expiration : Nat
deriving DecidableEq, Repr

/-- Cache.Set executed at instant now: store the value with expiration
now + ttl. -/
def cacheSet {α : Type} (data : GoMap (CacheItem α)) (now : Nat) (key : GoStr)
    (v : α) (ttl : Nat) : GoMap (CacheItem α) :=
  mapUpsert data key { value := v, expiration := now + ttl }

/-- Cache.Get executed at instant now: a missing key reports not-found; a
present item whose expiration lies strictly before now (time.Now().After) is
reported not-found — its physical deletion happens in a spawned goroutine and
never reaches the returned pair. -/
def cacheGet {α : Type} (data : GoMap (CacheItem α)) (now : Nat) (key : GoStr) :
    Option α × Bool :=
  match mapLookup data key with
  | none => (none, false)
  | some item =>
    if item.expiration < now then (none, false) else (some item.value, true)

/-- C9 A get strictly later than the expiration stored by a set reports the
key as absent, and more generally any entry whose expiration lies strictly in
the past is reported absent — an expired entry is never observable as a stale
hit. -/
theorem cache_expired_get {α : Type} (data : GoMap (CacheItem α))
    (now1 now2 ttl : Nat) (key : GoStr) (v : α) (h : now1 + ttl < now2) :
    cacheGet (cacheSet data now1 key v ttl) now2 key = (none, false) ∧
    (∀ d : GoMap (CacheItem α), ∀ t : Nat, ∀ k : GoStr, ∀ item : CacheItem α,
      mapLookup d k = some item → item.expiration < t →
      cacheGet d t k = (none, false)) := by
  constructor
  · unfold cacheGet cacheSet
    rw [mapLookup_upsert, if_pos rfl]
    dsimp only
    rw [if_pos h]
  · intro d t k item hlk hexp
    unfold cacheGet
    rw [hlk]
    dsimp only
    rw [if_pos hexp]

/-- C9 witness: the cache theorem at the concrete scenario of the spec — set
key k with a 1 unit life at instant 0, get at instant 2. -/
theorem cache_expired_get_witness :
    (0 + 1 < 2) ∧
    cacheGet (cacheSet ([] : GoMap (CacheItem Bool)) 0 "k".data true 1) 2
        "k".data = (none, false) :=
  ⟨by decide, (cache_expired_get [] 0 2 1 "k".data true (by decide)).1⟩

/-! The extractor (extractEmails and its two format handlers). -/

/-- Errors of the extraction phase: a failed open, a failed header read
(including end of input on an empty file), a failed row read (for example a
column-count mismatch), a spreadsheet without sheets, and an unsupported
extension. -/
inductive ExtractError
  | openFailure
  | headerFailure
  | rowFailure
  | noSheets
  | unsupportedFormat
deriving DecidableEq, Repr

/-- One row read from a reader: the record (its column strings) or a read
error such as a column-count mismatch. -/
abbrev RowRead := Except Unit (List GoStr)

/-- The record loop shared by both handlers (email_validation.go lines
247-264 and 309-323): stop at end of input, abort on the first row error,
and keep column one of a record when it is non-empty and contains an
at-sign. -/
def extractRowsLoop : List RowRead → List GoStr → Except ExtractError (List GoStr)
  | [], acc => .ok acc
  | .error _ :: _, _ => .error .rowFailure
  | .ok record :: rest, acc =>
    if record.length > 0 ∧ record.headD [] ≠ [] ∧ '@' ∈ record.headD [] then
      extractRowsLoop rest (acc ++ [record.headD []])
    else extractRowsLoop rest acc

/-- extractEmailsFromCSV (lines 223-268) over the abstract file content:
none models a failed os.Open (a missing file); the first row is the header,
whose read failure — in particular end of input on an empty file — aborts. -/
def extractEmailsFromCSV : Option (List RowRead) → Except ExtractError (List GoStr)
  | none => .error .openFailure
  | some [] => .error .headerFailure
  | some (.error _ :: _) => .error .headerFailure
  | some (.ok _ :: rest) => extractRowsLoop rest []

/-- extractEmailsFromExcel (lines 272-327) over the abstract sheet contents:
none models a failed OpenFile (a missing, empty or corrupt file), an empty
sheet list is the no-sheets error; the rows iterator of the first sheet skips
the header row when present and aborts on any row error. -/
def extractEmailsFromExcel :
    Option (List (List RowRead)) → Except ExtractError (List GoStr)
  | none => .error .openFailure
  | some [] => .error .noSheets
  | some ([] :: _) => .ok []
  | some ((.error _ :: _) :: _) => .error .headerFailure
  | some ((.ok _ :: rest) :: _) => extractRowsLoop rest []

/-- An input file as seen by the dispatcher extractEmails (lines 193-219),
already classified by its lowercased extension. -/
inductive InputFile
  | csv (contents : Option (List RowRead))
  | excel (contents : Option (List (List RowRead)))
  | other

/-- extractEmails: dispatch by extension, unsupported extensions fail. -/
def extractEmails : InputFile → Except ExtractError (List GoStr)
  | .csv contents => extractEmailsFromCSV contents
  | .excel contents => extractEmailsFromExcel contents
  | .other => .error .unsupportedFormat

theorem extractRowsLoop_error (rows : List RowRead) (acc : List GoStr)
    (h : ∃ e, Except.error e ∈ rows) :
    extractRowsLoop rows acc = .error .rowFailure := by
  induction rows generalizing acc with
  | nil =>
    obtain ⟨e, he⟩ := h
    simp at he
  | cons r rest ih =>
    obtain ⟨e, he⟩ := h
    rcases r with e1 | record
    · rfl
    · have hrest : ∃ e, Except.error e ∈ rest := by
        rcases List.mem_cons.mp he with h1 | h1
        · exact absurd h1 (by simp)
        · exact ⟨e, h1⟩
      unfold extractRowsLoop
      split_ifs <;> exact ih _ hrest

/-- C8 Extraction errors: a missing file and an empty file are errors, never
an empty candidate list, and a malformed row anywhere after the header aborts
the whole extraction with an error; the Except result shape rules out any
partial candidate list accompanying a failure. -/
theorem extract_aborts :
    extractEmails (.csv none) = .error .openFailure ∧
    extractEmails (.csv (some [])) = .error .headerFailure ∧
    extractEmails (.excel none) = .error .openFailure ∧
    extractEmails .other = .error .unsupportedFormat ∧
    (∀ header : List GoStr, ∀ rows : List RowRead,
      (∃ e, Except.error e ∈ rows) →
      extractEmails (.csv (some (Except.ok header :: rows))) =
        .error .rowFailure) := by
  refine ⟨rfl, rfl, rfl, rfl, ?_⟩
  intro header rows hbad
  exact extractRowsLoop_error rows [] hbad

/-- C8 witness: the extraction theorem applied to a file whose single data
row is malformed. -/
theorem extract_aborts_witness :
    (∃ e, Except.error e ∈ ([Except.error ()] : List RowRead)) ∧
    extractEmails (.csv (some (Except.ok [] :: [Except.error ()]))) =
      .error .rowFailure :=
  ⟨⟨(), List.mem_singleton.mpr rfl⟩,
    extract_aborts.2.2.2.2 [] [Except.error ()] ⟨(), List.mem_singleton.mpr rfl⟩⟩

/-! The report writers (generateEnhancedCSVOutput and
generateEnhancedExcelOutput). -/

/-- fmtBool (email_validation.go lines 559-564). -/
def fmtBool (b : Bool) : GoStr := if b then "Yes".data else "No".data

/-- Decimal rendering of a summary count, as written by the text writer. -/
def natField (n : Nat) : GoStr := (Nat.repr n).data

/-- The six-column header written by both writers (lines 471-478 header row,
lines 592-607 cells A1 to F1). -/
def reportHeader : List GoStr :=
  ["Email".data, "Normalized Email".data, "Source".data, "Status".data,
   "Valid".data, "Reason".data]

/-- One data row of the delimited-text writer (lines 483-522). -/
def csvEntryRow (rel status : GoStr) (e : EmailEntry) : List GoStr :=
  [e.email, e.normalizedEmail, rel, status, fmtBool e.isValid, e.reason]

/-- generateEnhancedCSVOutput (lines 460-556) as the list of records
written: header, the three sections, then the summary block. -/
def generateEnhancedCSVOutput
    (matching missingInFirst missingInSecond : List EmailEntry)
    (summary : ValidationSummary) : List (List GoStr) :=
  [reportHeader]
  ++ matching.map (csvEntryRow "Both".data "Matching".data)
  ++ missingInFirst.map
      (csvEntryRow "Second File Only".data "Missing in First File".data)
  ++ missingInSecond.map
      (csvEntryRow "First File Only".data "Missing in Second File".data)
  ++ [[[]], ["Summary".data], ["Metric".data, "Value".data]]
  ++ [["Total Emails in First File".data, natField summary.totalEmailsFirstFile],
      ["Total Emails in Second File".data, natField summary.totalEmailsSecondFile],
      ["Valid Emails in First File".data, natField summary.validEmailsFirstFile],
      ["Valid Emails in Second File".data, natField summary.validEmailsSecondFile],
      ["Matching Emails".data, natField summary.matchingCount],
      ["Emails Missing in First File".data, natField summary.missingInFirstCount],
      ["Emails Missing in Second File".data, natField summary.missingInSecondCount],
      ["Disposable Emails".data, natField summary.disposableEmailsCount]]

/-- A value set into a spreadsheet cell. -/
inductive CellValue
  | str (s : GoStr)
  | int (n : Nat)
deriving DecidableEq, Repr

/-- One SetCellValue call of the spreadsheet writer. -/
structure ExcelCell where
  sheet : GoStr
  col : Char
  row : Nat
  value : CellValue
deriving DecidableEq, Repr

/-- Name of the results sheet (line 571). -/
def resultsSheetName : GoStr := "Validation Results".data

/-- Name of the summary sheet (line 644). -/
def summarySheetName : GoStr := "Summary".data

/-- The header loop of the spreadsheet writer (lines 601-604) writes the six
headers into cells A1 to F1. -/
def excelHeaderCells : List ExcelCell :=
  [{ sheet := resultsSheetName, col := 'A', row := 1, value := .str "Email".data },
   { sheet := resultsSheetName, col := 'B', row := 1,
     value := .str "Normalized Email".data },
   { sheet := resultsSheetName, col := 'C', row := 1, value := .str "Source".data },
   { sheet := resultsSheetName, col := 'D', row := 1, value := .str "Status".data },
   { sheet := resultsSheetName, col := 'E', row := 1, value := .str "Valid".data },
   { sheet := resultsSheetName, col := 'F', row := 1, value := .str "Reason".data }]

/-- The SetCellValue calls for one entry of the spreadsheet writer (lines
611-618 and the analogous blocks): columns A to E hold the first five fields,
and the reason is written to column I of the same row. -/
def excelEntryCells (rel status : GoStr) (e : EmailEntry) (row : Nat) :
    List ExcelCell :=
  [{ sheet := resultsSheetName, col := 'A', row := row, value := .str e.email },
   { sheet := resultsSheetName, col := 'B', row := row,
     value := .str e.normalizedEmail },
   { sheet := resultsSheetName, col := 'C', row := row, value := .str rel },
   { sheet := resultsSheetName, col := 'D', row := row, value := .str status },
   { sheet := resultsSheetName, col := 'E', row := row,
     value := .str (fmtBool e.isValid) },
   { sheet := resultsSheetName, col := 'I', row := row, value := .str e.reason }]

/-- One section of entry rows, numbering from the given row. -/
def excelRows (rel status : GoStr) : List EmailEntry → Nat → List ExcelCell
  | [], _ => []
  | e :: rest, row =>
    excelEntryCells rel status e row ++ excelRows rel status rest (row + 1)

/-- The summary sheet rows (lines 656-670), numbering from row 2. -/
def excelSummaryRows : List (GoStr × Nat) → Nat → List ExcelCell
  | [], _ => []
  | (label, value) :: rest, row =>
    [{ sheet := summarySheetName, col := 'A', row := row, value := .str label },
     { sheet := summarySheetName, col := 'B', row := row, value := .int value }]
    ++ excelSummaryRows rest (row + 1)

/-- generateEnhancedExcelOutput (lines 567-689) as the list of SetCellValue
calls it performs: the six A1-F1 header cells, the three entry sections with
a running row counter starting at 2, and the summary sheet. -/
def generateEnhancedExcelOutput
    (matching missingInFirst missingInSecond : List EmailEntry)
    (summary : ValidationSummary) : List ExcelCell :=
  excelHeaderCells
  ++ excelRows "Both".data "Matching".data matching 2
  ++ excelRows "Second File Only".data "Missing in First File".data missingInFirst
      (2 + matching.length)
  ++ excelRows "First File Only".data "Missing in Second File".data missingInSecond
      (2 + matching.length + missingInFirst.length)
  ++ [{ sheet := summarySheetName, col := 'A', row := 1, value := .str "Metric".data },
      { sheet := summarySheetName, col := 'B', row := 1, value := .str "Value".data }]
  ++ excelSummaryRows
      [("Total Emails in First File".data, summary.totalEmailsFirstFile),
       ("Total Emails in Second File".data, summary.totalEmailsSecondFile),
       ("Valid Emails in First File".data, summary.validEmailsFirstFile),
       ("Valid Emails in Second File".data, summary.validEmailsSecondFile),
       ("Matching Emails".data, summary.matchingCount),
       ("Emails Missing in First File".data, summary.missingInFirstCount),
       ("Emails Missing in Second File".data, summary.missingInSecondCount),
       ("Disposable Emails".data, summary.disposableEmailsCount)] 2

/-- The value a cell holds after all SetCellValue calls: the last write to
that sheet, column and row, if any. -/
def cellAt (cells : List ExcelCell) (sheet : GoStr) (col : Char) (row : Nat) :
    Option CellValue :=
  ((cells.filter (fun c =>
      decide (c.sheet = sheet ∧ c.col = col ∧ c.row = row))).map
    (fun c => c.value)).getLast?

/-- A matched entry with a non-empty reason, used to evaluate the writers. -/
def sampleReasonEntry : EmailEntry :=
  { email := "a@b".data, source := "First File".data, isValid := true
    isDisposable := false, normalizedEmail := "a@b".data
    status := "Valid".data, reason := "bad".data }

/-- A summary for the writer evaluation. -/
def sampleSummary : ValidationSummary :=
  { totalEmailsFirstFile := 1, totalEmailsSecondFile := 1
    validEmailsFirstFile := 1, validEmailsSecondFile := 1
    matchingCount := 1, missingInFirstCount := 0, missingInSecondCount := 0
    disposableEmailsCount := 0, processingTimeSeconds := 0 }

/-- C7 Evaluating both writers at a matched entry whose reason is "bad": the
delimited-text writer renders the six-field row with the reason as the sixth
field, while the spreadsheet writer labels its column F "Reason" but leaves
F of the data row empty and writes the reason to the unlabeled ninth column
I — the two writers do not share the claimed six-field row shape. -/
theorem report_reason_column_mismatch :
    (generateEnhancedCSVOutput [sampleReasonEntry] [] [] sampleSummary).getD 1 [] =
      ["a@b".data, "a@b".data, "Both".data, "Matching".data, "Yes".data,
        "bad".data] ∧
    cellAt (generateEnhancedExcelOutput [sampleReasonEntry] [] [] sampleSummary)
        resultsSheetName 'F' 1 = some (.str "Reason".data) ∧
    cellAt (generateEnhancedExcelOutput [sampleReasonEntry] [] [] sampleSummary)
        resultsSheetName 'F' 2 = none ∧
    cellAt (generateEnhancedExcelOutput [sampleReasonEntry] [] [] sampleSummary)
        resultsSheetName 'I' 2 = some (.str "bad".data) := by
  decide
